import Mathlib

/-!
Verification of the lock-free work-stealing thread pool
(include/Threadpool.hpp): a shallow embedding of the
LockFreeRingBuffer operations, the pool facade (enqueue, pending_tasks,
destructor), the worker back-off ladder, the task wrapper, and a
micro-step interleaving model of the owner pop racing a concurrent
steal on the same ring.
-/

namespace Threadpool

/-- Shallow embedding of LockFreeRingBuffer (Threadpool.hpp lines 28-91).
The buffer is an array of Size slots, each holding a task pointer that
may be null (modelled as Option); head and tail are the size_t indices,
always kept in the range below Size by the masked arithmetic. -/
structure Ring (α : Type) where
  head : Nat
  tail : Nat
  buffer : List (Option α)
  deriving DecidableEq, Repr

/-- Embedding of LockFreeRingBuffer::push (lines 44-55): reads tail,
computes next = (tail + 1) and MASK with MASK = Size - 1; if next equals
head the ring is full and push returns false without mutation; otherwise
the item pointer is stored into slot tail, tail is advanced to next, and
push returns true. -/
def Ring.push (Size : Nat) (r : Ring α) (item : α) : Bool × Ring α :=
  let current_tail := r.tail
  let next_tail := (current_tail + 1) &&& (Size - 1)
  if next_tail = r.head then
    (false, r)
  else
    (true, { r with buffer := r.buffer.set current_tail (some item),
                    tail := next_tail })

/-- Embedding of LockFreeRingBuffer::pop (lines 57-66): reads head; if
head equals tail the ring is empty and pop returns null; otherwise pop
reads slot head, advances head to (head + 1) and MASK with a plain
store, and returns the slot content. -/
def Ring.pop (Size : Nat) (r : Ring α) : Option α × Ring α :=
  let current_head := r.head
  if current_head = r.tail then
    (none, r)
  else
    (r.buffer.getD current_head none,
     { r with head := (current_head + 1) &&& (Size - 1) })

/-- Embedding of LockFreeRingBuffer::steal (lines 68-86) as one atomic
operation (adequate when no other thread interferes during the call):
reads head and tail; if equal returns null; otherwise reads slot head
and performs CAS(head, head+1), which in the absence of interference
succeeds, returning the slot content. -/
def Ring.steal (Size : Nat) (r : Ring α) : Option α × Ring α :=
  let current_head := r.head
  let current_tail := r.tail
  if current_head = current_tail then
    (none, r)
  else
    (r.buffer.getD current_head none,
     { r with head := (current_head + 1) &&& (Size - 1) })

/-- Embedding of LockFreeRingBuffer::empty (lines 88-90). -/
def Ring.emptyCheck (r : Ring α) : Bool :=
  r.head = r.tail

/-- The ring as default-constructed: head = 0, tail = 0, every slot
null (Node.data is initialised to nullptr, line 32). -/
def emptyRing (α : Type) (Size : Nat) : Ring α :=
  { head := 0, tail := 0, buffer := List.replicate Size none }

/-- Well-formedness: indices below Size and buffer of length Size.
This holds for the default-constructed ring and is preserved by the
masked index arithmetic. -/
def Ring.WF (Size : Nat) (r : Ring α) : Prop :=
  r.head < Size ∧ r.tail < Size ∧ r.buffer.length = Size

instance (Size : Nat) (r : Ring α) : Decidable (Ring.WF Size r) := by
  unfold Ring.WF; infer_instance

/-- Forward distance from index h to index t around a ring of Size
slots. -/
def dist (Size h t : Nat) : Nat :=
  ((t + Size) - h) % Size

/-- Number of occupied slots: the forward distance from head to tail. -/
def Ring.count (Size : Nat) (r : Ring α) : Nat :=
  dist Size r.head r.tail

/-- One ring operation: a push of an item, an owner pop, or a steal. -/
inductive RingOp (α : Type) where
  | pushOp (a : α)
  | popOp
  | stealOp
  deriving DecidableEq, Repr

/-- Run a list of ring operations left to right, counting the pushes
that returned true and the pops/steals that found the ring nonempty
and advanced head. -/
def runOps (Size : Nat) : List (RingOp α) → Ring α → Ring α × Nat × Nat
  | [], r => (r, 0, 0)
  | RingOp.pushOp a :: rest, r =>
    let res := Ring.push Size r a
    let rec0 := runOps Size rest res.2
    (rec0.1, (if res.1 then rec0.2.1 + 1 else rec0.2.1), rec0.2.2)
  | RingOp.popOp :: rest, r =>
    let res := Ring.pop Size r
    let rec0 := runOps Size rest res.2
    (rec0.1, rec0.2.1, (if r.head = r.tail then rec0.2.2 else rec0.2.2 + 1))
  | RingOp.stealOp :: rest, r =>
    let res := Ring.steal Size r
    let rec0 := runOps Size rest res.2
    (rec0.1, rec0.2.1, (if r.head = r.tail then rec0.2.2 else rec0.2.2 + 1))

/-- Push the given items in order, requiring every push to succeed;
none is returned as soon as one push is rejected. -/
def pushAll (Size : Nat) : List α → Ring α → Option (Ring α)
  | [], r => some r
  | a :: rest, r =>
    let res := Ring.push Size r a
    if res.1 then pushAll Size rest res.2 else none

/-- State of the pool facade: the workers' local rings, the overflow
list (the chain hanging off global_queue_head, head first), the
counters global_queue_size (the spec's overflow_size) and active_tasks,
and the stop latch (Threadpool.hpp lines 107-114). -/
structure Pool (α : Type) where
  rings : List (Ring α)
  overflowList : List α
  overflowSize : Nat
  activeTasks : Nat
  stopFlag : Bool
  deriving DecidableEq, Repr

/-- Destination a submitted envelope was routed to by enqueue. -/
inductive Route where
  | localRing
  | overflow
  deriving DecidableEq, Repr

/-- The overflow branch of enqueue (lines 265-275): CAS-install the new
envelope as the head of the global list and increment
global_queue_size. -/
def pushOverflow (p : Pool α) (task : α) : Pool α × Route :=
  ({ p with overflowList := task :: p.overflowList,
            overflowSize := p.overflowSize + 1 }, Route.overflow)

/-- Embedding of the routing done by LockFreeThreadPool::enqueue
(lines 258-275): if the calling thread's thread-local index is in range
for the pool, try a push onto that worker's local ring and return on
success; otherwise, or when the ring rejected the push, push onto the
overflow list. -/
def enqueue (Size : Nat) (p : Pool α) (tid : Nat) (task : α) :
    Pool α × Route :=
  if h : tid < p.rings.length then
    let res := Ring.push Size (p.rings.get ⟨tid, h⟩) task
    if res.1 then
      ({ p with rings := p.rings.set tid res.2 }, Route.localRing)
    else
      pushOverflow p task
  else
    pushOverflow p task

/-- Embedding of LockFreeThreadPool::pending_tasks (lines 303-306). -/
def pending_tasks (p : Pool α) : Nat :=
  p.overflowSize + p.activeTasks

/-- The completion slot of a submitted task, as resolved by the
wrapper: the promise holds either the value or the captured
exception. -/
inductive Completion (E V : Type) where
  | success (v : V)
  | failure (e : E)
  deriving DecidableEq, Repr

/-- Embedding of the wrapper lambda built by enqueue (lines 244-255):
invoke the bound callable under try/catch and deliver its result to
the promise, the value on normal return or the in-flight exception on
throw. The callable's behaviour is given as an Except value: ok v for
a normal return of v (Unit for void), error e for a raised e. -/
def runEnvelope (body : Except E V) : Completion E V :=
  match body with
  | Except.ok v => Completion.success v
  | Except.error e => Completion.failure e

/-- Observation through the returned future (std::future::get): yield
the stored value, or re-raise the stored exception. -/
def futureGet (c : Completion E V) : Except E V :=
  match c with
  | Completion.success v => Except.ok v
  | Completion.failure e => Except.error e

/-- What the worker does once it holds a task (worker_thread lines
137-142): increment active_tasks, run the envelope, decrement
active_tasks, delete the envelope. -/
structure ExecOutcome (E V : Type) where
  slot : Completion E V
  activeDuring : Nat
  activeAfter : Nat
  envelopeFreed : Bool
  deriving DecidableEq, Repr

def workerExecute (active : Nat) (body : Except E V) : ExecOutcome E V :=
  { slot := runEnvelope body
    activeDuring := active + 1
    activeAfter := active + 1 - 1
    envelopeFreed := true }

/-- The four phases of the destructor. -/
inductive Phase where
  | waitPhase
  | stopPhase
  | joinPhase
  | drainPhase
  deriving DecidableEq, Repr

/-- Destructor-time bookkeeping: the pool, whether all worker threads
have been joined, the envelopes deallocated so far, and the order in
which the shutdown phases ran. -/
structure Shutdown (α : Type) where
  pool : Pool α
  joinedAll : Bool
  freed : List α
  trace : List Phase
  deriving DecidableEq, Repr

/-- The drain loop of the destructor (lines 228-233): walk the overflow
chain from its head, deleting each envelope and stepping to next. -/
def drainChain : List α → List α
  | [] => []
  | a :: rest => a :: drainChain rest

/-- Destructor line 218: the call to wait(). -/
def dtorWait (s : Shutdown α) : Shutdown α :=
  { s with trace := s.trace ++ [Phase.waitPhase] }

/-- Destructor line 220: stop.store(true). -/
def dtorStop (s : Shutdown α) : Shutdown α :=
  { s with pool := { s.pool with stopFlag := true },
           trace := s.trace ++ [Phase.stopPhase] }

/-- Destructor lines 222-226: join every worker thread. -/
def dtorJoin (s : Shutdown α) : Shutdown α :=
  { s with joinedAll := true, trace := s.trace ++ [Phase.joinPhase] }

/-- Destructor lines 228-233: drain the overflow list, deallocating
every envelope still on the chain. -/
def dtorDrain (s : Shutdown α) : Shutdown α :=
  { s with pool := { s.pool with overflowList := [] },
           freed := s.freed ++ drainChain s.pool.overflowList,
           trace := s.trace ++ [Phase.drainPhase] }

/-- Embedding of LockFreeThreadPool::~LockFreeThreadPool (lines
217-234): wait, then set the stop latch, then join all workers, then
drain the overflow list. -/
def destructor (s : Shutdown α) : Shutdown α :=
  dtorDrain (dtorJoin (dtorStop (dtorWait s)))

/-- Per-worker back-off state (WorkerData, lines 100-105). -/
structure WorkerData where
  steal_attempts : Nat
  sleeping : Bool
  deriving DecidableEq, Repr

/-- Observable scheduler interactions of one back-off call. -/
inductive BackoffEvent where
  | yieldCoop
  | sleepFor (micros : Nat)
  | setSleeping (b : Bool)
  deriving DecidableEq, Repr

/-- Embedding of LockFreeThreadPool::backoff (lines 178-192): fetch_add
yields the previous consecutive-miss count; the ladder branches on it
and emits the corresponding scheduler events. In the last rung the
sleeping flag is stored true, the thread sleeps one millisecond, and
the flag is stored false again. -/
def backoff (d : WorkerData) : WorkerData × List BackoffEvent :=
  let attempts := d.steal_attempts
  let d1 : WorkerData := { d with steal_attempts := d.steal_attempts + 1 }
  if attempts < 10 then
    (d1, [BackoffEvent.yieldCoop])
  else if attempts < 20 then
    (d1, [BackoffEvent.sleepFor 10])
  else if attempts < 100 then
    (d1, [BackoffEvent.sleepFor 100])
  else
    ({ d1 with sleeping := false },
     [BackoffEvent.setSleeping true, BackoffEvent.sleepFor 1000,
      BackoffEvent.setSleeping false])

/-- Total time in microseconds one back-off call asks to sleep. -/
def backoffDelay : List BackoffEvent → Nat
  | [] => 0
  | BackoffEvent.sleepFor n :: rest => n + backoffDelay rest
  | _ :: rest => backoffDelay rest

/-- The reset the worker performs when it obtains a task
(worker_thread line 142). -/
def onTaskObtained (d : WorkerData) : WorkerData :=
  { d with steal_attempts := 0 }

/-- One thread executing a dequeue on a shared ring, broken into its
atomic memory operations: read head (pc 0), read tail and branch on
empty (pc 1), read slot head (pc 2), then either an unconditional
store of head+1 (the source pop, lines 63-64) or a CAS on head (the
steal, lines 79-83) (pc 3); pc 4 is returned. -/
structure ThreadState (α : Type) where
  pc : Nat
  lh : Nat
  item : Option α
  ret : Option (Option α)
  deriving DecidableEq, Repr

def initThread (α : Type) : ThreadState α :=
  { pc := 0, lh := 0, item := none, ret := none }

/-- One atomic step of a dequeuing thread. With useCAS false this is
the source pop; with useCAS true it is the steal, and equally the
strategy-(b) CAS pop described by the spec. -/
def threadStep (Size : Nat) (useCAS : Bool) (ring : Ring α)
    (ts : ThreadState α) : Ring α × ThreadState α :=
  match ts.pc with
  | 0 => (ring, { ts with lh := ring.head, pc := 1 })
  | 1 =>
    if ts.lh = ring.tail then
      (ring, { ts with ret := some none, pc := 4 })
    else
      (ring, { ts with pc := 2 })
  | 2 => (ring, { ts with item := ring.buffer.getD ts.lh none, pc := 3 })
  | 3 =>
    if useCAS then
      if ring.head = ts.lh then
        ({ ring with head := (ts.lh + 1) &&& (Size - 1) },
         { ts with ret := some ts.item, pc := 4 })
      else
        (ring, { ts with ret := some none, pc := 4 })
    else
      ({ ring with head := (ts.lh + 1) &&& (Size - 1) },
       { ts with ret := some ts.item, pc := 4 })
  | _ => (ring, ts)

/-- The owner running its dequeue concurrently with a thief running
steal on the same ring. ownerCAS selects the owner's protocol: false
is the source pop, true is the strategy-(b) CAS pop of the spec. -/
structure RaceState (α : Type) where
  ring : Ring α
  owner : ThreadState α
  thief : ThreadState α
  deriving DecidableEq, Repr

/-- Run one atomic step of the owner (who = true) or the thief
(who = false). -/
def raceStep (Size : Nat) (ownerCAS : Bool) (s : RaceState α)
    (who : Bool) : RaceState α :=
  if who then
    let res := threadStep Size ownerCAS s.ring s.owner
    { s with ring := res.1, owner := res.2 }
  else
    let res := threadStep Size true s.ring s.thief
    { s with ring := res.1, thief := res.2 }

/-- Run the two threads under the given schedule of atomic steps. -/
def runRace (Size : Nat) (ownerCAS : Bool) :
    List Bool → RaceState α → RaceState α
  | [], s => s
  | w :: ws, s => runRace Size ownerCAS ws (raceStep Size ownerCAS s w)

/-- Initial state of the race scenario: a two-slot ring holding the
single envelope 7 (one successful push into the default-constructed
ring), the owner about to pop, a thief about to steal. -/
def raceInit : RaceState Nat :=
  { ring := (Ring.push 2 (emptyRing Nat 2) 7).2
    owner := initThread Nat
    thief := initThread Nat }

/-- The schedule in which the owner reads head, tail and the slot, the
thief then runs its whole steal (its CAS on head succeeds), and the
owner then performs its final head update. -/
def raceSchedule : List Bool :=
  [true, true, true, false, false, false, false, true]

/-- The schedule in which the owner runs its whole dequeue with no
interference from the thief. -/
def soloSchedule : List Bool :=
  [true, true, true, true]

theorem mask_eq_mod (k x : Nat) : x &&& (2 ^ k - 1) = x % 2 ^ k :=
  Nat.and_pow_two_sub_one_eq_mod x k

theorem dist_eq_cases {Size h t : Nat} (hh : h < Size) (ht : t < Size) :
    dist Size h t = if h ≤ t then t - h else t + Size - h := by
  unfold dist
  by_cases hle : h ≤ t
  · have h1 : (t + Size) - h = (t - h) + Size := by omega
    rw [if_pos hle, h1, Nat.add_mod_right, Nat.mod_eq_of_lt (by omega)]
  · have h1 : (t + Size) - h < Size := by omega
    rw [if_neg hle, Nat.mod_eq_of_lt h1]

theorem dist_lt {Size h t : Nat} (hS : 0 < Size) : dist Size h t < Size :=
  Nat.mod_lt _ hS

theorem dist_zero_iff {Size h t : Nat} (hh : h < Size) (ht : t < Size) :
    dist Size h t = 0 ↔ h = t := by
  rw [dist_eq_cases hh ht]
  by_cases hle : h ≤ t
  · rw [if_pos hle]; omega
  · rw [if_neg hle]; omega

theorem dist_full_iff {Size h t : Nat} (hS : 2 ≤ Size) (hh : h < Size)
    (ht : t < Size) : (t + 1) % Size = h ↔ dist Size h t = Size - 1 := by
  rw [dist_eq_cases hh ht]
  by_cases h1 : t + 1 < Size
  · rw [Nat.mod_eq_of_lt h1]
    by_cases hle : h ≤ t
    · rw [if_pos hle]; omega
    · rw [if_neg hle]; omega
  · have h2 : t + 1 = Size := by omega
    rw [h2, Nat.mod_self]
    by_cases hle : h ≤ t
    · rw [if_pos hle]; omega
    · rw [if_neg hle]; omega

theorem dist_succ_tail {Size h t : Nat} (hh : h < Size) (ht : t < Size)
    (hne : (t + 1) % Size ≠ h) :
    dist Size h ((t + 1) % Size) = dist Size h t + 1 := by
  have hS : 0 < Size := by omega
  by_cases h1 : t + 1 < Size
  · rw [Nat.mod_eq_of_lt h1] at hne ⊢
    rw [dist_eq_cases hh h1, dist_eq_cases hh ht]
    by_cases hle : h ≤ t
    · rw [if_pos hle, if_pos (by omega)]; omega
    · rw [if_neg hle, if_neg (by omega)]; omega
  · have h2 : t + 1 = Size := by omega
    rw [h2, Nat.mod_self] at hne ⊢
    rw [dist_eq_cases hh hS, dist_eq_cases hh ht]
    have hle : h ≤ t := by omega
    rw [if_neg (by omega), if_pos hle]
    omega

theorem dist_succ_head {Size h t : Nat} (hh : h < Size) (ht : t < Size)
    (hne : h ≠ t) :
    dist Size ((h + 1) % Size) t = dist Size h t - 1 := by
  have hS : 0 < Size := by omega
  by_cases h1 : h + 1 < Size
  · rw [Nat.mod_eq_of_lt h1]
    rw [dist_eq_cases h1 ht, dist_eq_cases hh ht]
    by_cases hle : h ≤ t
    · rw [if_pos hle]
      by_cases hle2 : h + 1 ≤ t
      · rw [if_pos hle2]; omega
      · omega
    · rw [if_neg hle, if_neg (by omega)]; omega
  · have h2 : h + 1 = Size := by omega
    rw [h2, Nat.mod_self]
    rw [dist_eq_cases hS ht, dist_eq_cases hh ht]
    rw [if_pos (by omega), if_neg (by omega)]
    omega

theorem emptyRing_wf {α : Type} {Size : Nat} (hS : 0 < Size) :
    Ring.WF Size (emptyRing α Size) := by
  refine ⟨hS, hS, ?_⟩
  simp [emptyRing]

theorem emptyRing_count {α : Type} {Size : Nat} (hS : 0 < Size) :
    Ring.count Size (emptyRing α Size) = 0 := by
  show dist Size 0 0 = 0
  exact (dist_zero_iff hS hS).mpr rfl

theorem two_le_two_pow {k : Nat} (hk : 1 ≤ k) : 2 ≤ 2 ^ k := by
  calc 2 = 2 ^ 1 := by norm_num
  _ ≤ 2 ^ k := Nat.pow_le_pow_right (by omega) hk

/-- Push fails exactly on a full ring: the masked successor of tail
equals head precisely when the occupancy is Size - 1. -/
theorem push_full_iff {α : Type} {k : Nat} (hk : 1 ≤ k) (r : Ring α)
    (hw : Ring.WF (2 ^ k) r) :
    ((r.tail + 1) &&& (2 ^ k - 1) = r.head) ↔
      Ring.count (2 ^ k) r = 2 ^ k - 1 := by
  obtain ⟨hh, ht, _⟩ := hw
  rw [mask_eq_mod]
  exact dist_full_iff (two_le_two_pow hk) hh ht

/-- A successful push adds exactly one element and preserves
well-formedness; head is untouched and the item lands in slot tail. -/
theorem push_success {α : Type} {k : Nat} (hk : 1 ≤ k) (r : Ring α)
    (item : α) (hw : Ring.WF (2 ^ k) r)
    (hnf : ¬ ((r.tail + 1) &&& (2 ^ k - 1) = r.head)) :
    (Ring.push (2 ^ k) r item).1 = true ∧
    Ring.WF (2 ^ k) (Ring.push (2 ^ k) r item).2 ∧
    Ring.count (2 ^ k) (Ring.push (2 ^ k) r item).2 =
      Ring.count (2 ^ k) r + 1 ∧
    (Ring.push (2 ^ k) r item).2.head = r.head ∧
    (Ring.push (2 ^ k) r item).2.buffer = r.buffer.set r.tail (some item) := by
  obtain ⟨hh, ht, hb⟩ := hw
  have hS : 0 < 2 ^ k := by have := two_le_two_pow hk; omega
  unfold Ring.push
  rw [if_neg hnf]
  rw [mask_eq_mod] at hnf ⊢
  have hmodlt : (r.tail + 1) % 2 ^ k < 2 ^ k := Nat.mod_lt _ hS
  exact ⟨rfl, ⟨hh, hmodlt, by simpa using hb⟩,
    dist_succ_tail hh ht hnf, rfl, rfl⟩

/-- A failed push returns false with the ring unchanged. -/
theorem push_fail {α : Type} (Size : Nat) (r : Ring α) (item : α)
    (hf : (r.tail + 1) &&& (Size - 1) = r.head) :
    Ring.push Size r item = (false, r) := by
  unfold Ring.push
  rw [if_pos hf]

/-- Pop on an empty ring returns null and leaves the ring unchanged. -/
theorem pop_empty {α : Type} (Size : Nat) (r : Ring α)
    (he : r.head = r.tail) : Ring.pop Size r = (none, r) := by
  unfold Ring.pop
  rw [if_pos he]

/-- Pop on a nonempty ring removes exactly one element and preserves
well-formedness. -/
theorem pop_nonempty {α : Type} {k : Nat} (hk : 1 ≤ k) (r : Ring α)
    (hw : Ring.WF (2 ^ k) r) (hne : r.head ≠ r.tail) :
    (Ring.pop (2 ^ k) r).1 = r.buffer.getD r.head none ∧
    Ring.WF (2 ^ k) (Ring.pop (2 ^ k) r).2 ∧
    Ring.count (2 ^ k) (Ring.pop (2 ^ k) r).2 =
      Ring.count (2 ^ k) r - 1 ∧
    (Ring.pop (2 ^ k) r).2.tail = r.tail ∧
    (Ring.pop (2 ^ k) r).2.buffer = r.buffer := by
  obtain ⟨hh, ht, hb⟩ := hw
  have hS : 0 < 2 ^ k := by have := two_le_two_pow hk; omega
  unfold Ring.pop
  rw [if_neg hne]
  rw [mask_eq_mod]
  have hmodlt : (r.head + 1) % 2 ^ k < 2 ^ k := Nat.mod_lt _ hS
  exact ⟨rfl, ⟨hmodlt, ht, hb⟩, dist_succ_head hh ht hne, rfl, rfl⟩

/-- Steal, taken as one uninterfered atomic operation, reads and
advances the very same end (head) as pop: on every ring state it
returns the same item and produces the same state as pop. -/
theorem steal_eq_pop {α : Type} (Size : Nat) (r : Ring α) :
    Ring.steal Size r = Ring.pop Size r := by
  unfold Ring.steal Ring.pop
  rfl

theorem getD_set_self {α : Type} (l : List (Option α)) (i : Nat)
    (x : Option α) (h : i < l.length) :
    (l.set i x).getD i none = x := by
  simp [List.getD_eq_getElem?_getD, List.getElem?_set_self, h]

theorem getD_set_ne {α : Type} (l : List (Option α)) (i j : Nat)
    (x : Option α) (h : i ≠ j) :
    (l.set i x).getD j none = l.getD j none := by
  simp [List.getD_eq_getElem?_getD, List.getElem?_set_ne h]

theorem succ_mod_ne_self {Size t : Nat} (hS : 2 ≤ Size) (ht : t < Size) :
    (t + 1) % Size ≠ t := by
  by_cases h1 : t + 1 < Size
  · rw [Nat.mod_eq_of_lt h1]; omega
  · have h2 : t + 1 = Size := by omega
    rw [h2, Nat.mod_self]; omega

/-- Claim C1 (amended): within one local ring operated by its owner
with no concurrent stealers, dequeue order is FIFO, not LIFO: starting
from any empty well-formed ring, after push a then push b the owner's
next pop returns a, the least recently pushed envelope; and steal
removes from the same end of the ring (head) as the owner's pop does,
returning exactly what pop would return on every ring state. -/
theorem ring_fifo_and_steal_same_end {α : Type} {k : Nat} (hk : 2 ≤ k)
    (r : Ring α) (a b : α) (hw : Ring.WF (2 ^ k) r)
    (he : r.head = r.tail) :
    (Ring.push (2 ^ k) r a).1 = true ∧
    (Ring.push (2 ^ k) (Ring.push (2 ^ k) r a).2 b).1 = true ∧
    (Ring.pop (2 ^ k)
      (Ring.push (2 ^ k) (Ring.push (2 ^ k) r a).2 b).2).1 = some a ∧
    (∀ r' : Ring α, (Ring.steal (2 ^ k) r').1 = (Ring.pop (2 ^ k) r').1) := by
  have hk1 : 1 ≤ k := by omega
  have hS2 : 2 ≤ 2 ^ k := two_le_two_pow hk1
  have hS4 : 4 ≤ 2 ^ k := by
    calc 4 = 2 ^ 2 := by norm_num
    _ ≤ 2 ^ k := Nat.pow_le_pow_right (by omega) hk
  obtain ⟨hh, ht, hb⟩ := hw
  have hc0 : Ring.count (2 ^ k) r = 0 := by
    exact (dist_zero_iff hh ht).mpr he
  have hnf1 : ¬ ((r.tail + 1) &&& (2 ^ k - 1) = r.head) := by
    intro hfull
    have := (push_full_iff hk1 r ⟨hh, ht, hb⟩).mp hfull
    omega
  obtain ⟨hp1, hw1, hc1, hh1, hbuf1⟩ := push_success hk1 r a ⟨hh, ht, hb⟩ hnf1
  set r1 := (Ring.push (2 ^ k) r a).2 with hr1
  have hc1v : Ring.count (2 ^ k) r1 = 1 := by omega
  have hnf2 : ¬ ((r1.tail + 1) &&& (2 ^ k - 1) = r1.head) := by
    intro hfull
    have := (push_full_iff hk1 r1 hw1).mp hfull
    omega
  obtain ⟨hp2, hw2, hc2, hh2, hbuf2⟩ := push_success hk1 r1 b hw1 hnf2
  set r2 := (Ring.push (2 ^ k) r1 b).2 with hr2
  have hc2v : Ring.count (2 ^ k) r2 = 2 := by omega
  have hne2 : r2.head ≠ r2.tail := by
    intro heq
    obtain ⟨hh2w, ht2w, _⟩ := hw2
    have := (dist_zero_iff hh2w ht2w).mpr heq
    have : Ring.count (2 ^ k) r2 = 0 := this
    omega
  refine ⟨hp1, hp2, ?_, ?_⟩
  · obtain ⟨hpop, _, _, _, _⟩ := pop_nonempty hk1 r2 hw2 hne2
    rw [hpop, hbuf2, hbuf1, hh2, hh1, he]
    -- r1.tail is the masked successor of r.tail, distinct from r.tail
    have hr1t : r1.tail = (r.tail + 1) % 2 ^ k := by
      rw [hr1]
      unfold Ring.push
      rw [if_neg hnf1, mask_eq_mod]
    have hner : r1.tail ≠ r.tail := by
      rw [hr1t]
      exact succ_mod_ne_self hS2 ht
    rw [getD_set_ne _ _ _ _ hner, getD_set_self _ _ _ (by omega)]
  · intro r'
    rw [steal_eq_pop]

/-- Claim C1 counterexample to the claim as stated: on a four-slot
ring, after the owner pushes 1 then 2, the owner's next pop returns 1,
not 2 (the most recently pushed envelope), and steal takes from the
very same end as pop, not the opposite one. -/
theorem lifo_pop_counterexample :
    (Ring.push 4 (emptyRing Nat 4) 1).1 = true ∧
    (Ring.push 4 (Ring.push 4 (emptyRing Nat 4) 1).2 2).1 = true ∧
    (Ring.pop 4 (Ring.push 4 (Ring.push 4 (emptyRing Nat 4) 1).2 2).2).1
      = some 1 ∧
    ¬ ((Ring.pop 4
        (Ring.push 4 (Ring.push 4 (emptyRing Nat 4) 1).2 2).2).1 = some 2) ∧
    (Ring.steal 4 (Ring.push 4 (Ring.push 4 (emptyRing Nat 4) 1).2 2).2).1
      = (Ring.pop 4 (Ring.push 4 (Ring.push 4 (emptyRing Nat 4) 1).2 2).2).1 := by
  decide

/-- Claim C1 witness: the amended statement evaluated on a concrete
empty four-slot ring. -/
theorem ring_fifo_and_steal_same_end_witness :
    (Ring.push (2 ^ 2) (emptyRing Nat (2 ^ 2)) 10).1 = true ∧
    (Ring.push (2 ^ 2) (Ring.push (2 ^ 2) (emptyRing Nat (2 ^ 2)) 10).2 20).1
      = true ∧
    (Ring.pop (2 ^ 2)
      (Ring.push (2 ^ 2)
        (Ring.push (2 ^ 2) (emptyRing Nat (2 ^ 2)) 10).2 20).2).1 = some 10 ∧
    (∀ r' : Ring Nat,
      (Ring.steal (2 ^ 2) r').1 = (Ring.pop (2 ^ 2) r').1) :=
  ring_fifo_and_steal_same_end (by decide) (emptyRing Nat (2 ^ 2)) 10 20
    (by decide) (by decide)

/-- Claim C4: push returns false and leaves the ring unchanged exactly
when (tail + 1) masked with Size - 1 equals head; otherwise it stores
the item into slot tail, advances tail to the masked successor, leaves
head alone, and returns true. -/
theorem push_characterisation {α : Type} (Size : Nat) (r : Ring α)
    (item : α) (hw : Ring.WF Size r) :
    (((Ring.push Size r item).1 = false ∧ (Ring.push Size r item).2 = r) ↔
       (r.tail + 1) &&& (Size - 1) = r.head) ∧
    ((r.tail + 1) &&& (Size - 1) ≠ r.head →
       (Ring.push Size r item).1 = true ∧
       (Ring.push Size r item).2.head = r.head ∧
       (Ring.push Size r item).2.tail = (r.tail + 1) &&& (Size - 1) ∧
       (Ring.push Size r item).2.buffer = r.buffer.set r.tail (some item) ∧
       (Ring.push Size r item).2.buffer.getD r.tail none = some item) := by
  obtain ⟨hh, ht, hb⟩ := hw
  constructor
  · constructor
    · intro ⟨hfalse, _⟩
      by_contra hnf
      unfold Ring.push at hfalse
      rw [if_neg hnf] at hfalse
      simp at hfalse
    · intro hf
      rw [push_fail Size r item hf]
      exact ⟨rfl, rfl⟩
  · intro hnf
    unfold Ring.push
    rw [if_neg hnf]
    refine ⟨rfl, rfl, rfl, rfl, ?_⟩
    exact getD_set_self r.buffer r.tail (some item) (by omega)

/-- Claim C4 witness: the characterisation evaluated on a concrete
nonfull and a concrete full ring state. -/
theorem push_characterisation_witness :
    (((Ring.push 4 (emptyRing Nat 4) 5).1 = false ∧
        (Ring.push 4 (emptyRing Nat 4) 5).2 = emptyRing Nat 4) ↔
      (0 + 1) &&& (4 - 1) = 0) ∧
    ((0 + 1) &&& (4 - 1) ≠ 0 →
       (Ring.push 4 (emptyRing Nat 4) 5).1 = true ∧
       (Ring.push 4 (emptyRing Nat 4) 5).2.head = 0 ∧
       (Ring.push 4 (emptyRing Nat 4) 5).2.tail = (0 + 1) &&& (4 - 1) ∧
       (Ring.push 4 (emptyRing Nat 4) 5).2.buffer
         = (emptyRing Nat 4).buffer.set 0 (some 5) ∧
       (Ring.push 4 (emptyRing Nat 4) 5).2.buffer.getD 0 none = some 5) :=
  push_characterisation 4 (emptyRing Nat 4) 5 (by decide)

/-- Claim C2 counterexample to the claim as stated: the owner-side pop
does not follow the CAS protocol of steal. On a ring holding one
envelope, under the schedule in which a thief's steal runs to
completion between the pop's loads and its head update, the source pop
returns the envelope, while the strategy-(b) CAS pop the claim
describes returns null; the two protocols are observably different. -/
theorem pop_cas_counterexample :
    (runRace 2 false raceSchedule raceInit).owner.ret = some (some 7) ∧
    (runRace 2 true raceSchedule raceInit).owner.ret = some none ∧
    ¬ ((runRace 2 false raceSchedule raceInit).owner.ret
        = (runRace 2 true raceSchedule raceInit).owner.ret) := by
  decide

/-- Claim C2 (amended): the owner-side pop advances head with a plain
unconditional store, not by the compare-and-swap protocol of steal.
Without interference the two protocols agree, but a pop that loses the
race to a concurrent steal does not return null: it returns the very
envelope the steal already removed and stores head past the stolen
slot anyway. -/
theorem pop_plain_store_semantics :
    ((runRace 2 false soloSchedule raceInit).owner.ret
       = (runRace 2 true soloSchedule raceInit).owner.ret) ∧
    (runRace 2 false raceSchedule raceInit).thief.ret = some (some 7) ∧
    (runRace 2 false raceSchedule raceInit).owner.ret = some (some 7) ∧
    (runRace 2 false raceSchedule raceInit).ring.head = 1 := by
  decide

/-- Claim C3 at the failing interleaving: a worker's pop on its own
ring holding the single envelope 7, raced by another worker's steal
that completes in between, ends with BOTH dequeues returning envelope
7. The worker loop (worker_thread lines 137-141) executes and deletes
whatever nonnull task it obtained, so the one submitted envelope is
executed (and freed) twice, contradicting exactly-once execution. -/
theorem double_execution_at_race :
    (runRace 2 false raceSchedule raceInit).owner.ret = some (some 7) ∧
    (runRace 2 false raceSchedule raceInit).thief.ret = some (some 7) := by
  decide

/-- Claim C5: enqueue routes every envelope and always produces a
handle: with the caller's thread-local index in range and the local
push succeeding, the envelope lands in that worker's ring and nothing
else changes; otherwise (index out of range, or the ring rejected the
push because it was full) the envelope is pushed onto the overflow
list and overflow_size is incremented; in every case the call returns,
routing to one of the two destinations. -/
theorem enqueue_routing {α : Type} (Size : Nat) (p : Pool α) (tid : Nat)
    (task : α) :
    (∀ h : tid < p.rings.length,
      (Ring.push Size (p.rings.get ⟨tid, h⟩) task).1 = true →
        enqueue Size p tid task =
          ({ p with rings :=
              p.rings.set tid (Ring.push Size (p.rings.get ⟨tid, h⟩) task).2 },
           Route.localRing)) ∧
    (∀ h : tid < p.rings.length,
      (Ring.push Size (p.rings.get ⟨tid, h⟩) task).1 = false →
        enqueue Size p tid task = pushOverflow p task) ∧
    (¬ tid < p.rings.length →
        enqueue Size p tid task = pushOverflow p task) ∧
    (pushOverflow p task =
      ({ p with overflowList := task :: p.overflowList,
                overflowSize := p.overflowSize + 1 }, Route.overflow)) ∧
    ((enqueue Size p tid task).2 = Route.localRing ∨
      (enqueue Size p tid task).2 = Route.overflow) := by
  refine ⟨?_, ?_, ?_, rfl, ?_⟩
  · intro h hpush
    unfold enqueue
    rw [dif_pos h, if_pos hpush]
  · intro h hpush
    unfold enqueue
    rw [dif_pos h, if_neg (by rw [hpush]; exact Bool.false_ne_true)]
  · intro h
    unfold enqueue
    rw [dif_neg h]
  · unfold enqueue
    by_cases h : tid < p.rings.length
    · rw [dif_pos h]
      by_cases hpush : (Ring.push Size (p.rings.get ⟨tid, h⟩) task).1 = true
      · rw [if_pos hpush]
        exact Or.inl rfl
      · rw [if_neg hpush]
        exact Or.inr rfl
    · rw [dif_neg h]
      exact Or.inr rfl

/-- Claim C5 witness: the routing evaluated concretely, once for a
worker whose local push succeeds, once for the full-ring reroute, and
once for an external submitter. -/
theorem enqueue_routing_witness :
    (enqueue 4
        { rings := [emptyRing Nat 4], overflowList := [],
          overflowSize := 0, activeTasks := 0, stopFlag := false }
        0 9).2 = Route.localRing ∧
    (enqueue 4
        { rings := [{ head := 0, tail := 3, buffer := [none, none, none, none] }],
          overflowList := [], overflowSize := 0, activeTasks := 0,
          stopFlag := false }
        0 9).2 = Route.overflow ∧
    (enqueue 4
        { rings := [emptyRing Nat 4], overflowList := [],
          overflowSize := 0, activeTasks := 0, stopFlag := false }
        7 9).2 = Route.overflow := by
  refine ⟨?_, ?_, ?_⟩
  · rw [(enqueue_routing 4
      { rings := [emptyRing Nat 4], overflowList := [],
        overflowSize := 0, activeTasks := 0, stopFlag := false }
      0 9).1 (by decide) (by decide)]
  · rw [(enqueue_routing 4
      { rings := [{ head := 0, tail := 3, buffer := [none, none, none, none] }],
        overflowList := [], overflowSize := 0, activeTasks := 0,
        stopFlag := false }
      0 9).2.1 (by decide) (by decide)]
    rfl
  · rw [(enqueue_routing 4
      { rings := [emptyRing Nat 4], overflowList := [],
        overflowSize := 0, activeTasks := 0, stopFlag := false }
      7 9).2.2.1 (by decide)]
    rfl

/-- Claim C6: for every callable outcome, the wrapper delivers exactly
that outcome to the completion slot: a normal return of v makes get on
the handle yield v, a raised e makes get re-raise e; active_tasks
returns to its prior value and the envelope is deallocated immediately
after execution. -/
theorem task_outcome_propagation {E V : Type} (active : Nat)
    (body : Except E V) :
    futureGet (workerExecute active body).slot = body ∧
    (∀ v : V, body = Except.ok v →
      (workerExecute active body).slot = Completion.success v) ∧
    (∀ e : E, body = Except.error e →
      (workerExecute active body).slot = Completion.failure e) ∧
    (workerExecute active body).activeDuring = active + 1 ∧
    (workerExecute active body).activeAfter = active ∧
    (workerExecute active body).envelopeFreed = true := by
  cases body with
  | ok v =>
    refine ⟨rfl, ?_, ?_, rfl, rfl, rfl⟩
    · intro v' hv
      cases hv
      rfl
    · intro e he
      cases he
  | error e =>
    refine ⟨rfl, ?_, ?_, rfl, rfl, rfl⟩
    · intro v hv
      cases hv
    · intro e' he
      cases he
      rfl

/-- Claim C6 witness: a value-returning task, a throwing task, and a
void task, all observed through their handles. -/
theorem task_outcome_propagation_witness :
    futureGet (workerExecute 0 (Except.ok 42 : Except Nat Nat)).slot
      = Except.ok 42 ∧
    (workerExecute 0 (Except.error 13 : Except Nat Nat)).slot
      = Completion.failure 13 ∧
    futureGet (workerExecute 5 (Except.ok () : Except Nat Unit)).slot
      = Except.ok () ∧
    (workerExecute 0 (Except.ok 42 : Except Nat Nat)).activeAfter = 0 := by
  refine ⟨(task_outcome_propagation 0 (Except.ok 42 : Except Nat Nat)).1,
    ?_, ?_, ?_⟩
  · exact (task_outcome_propagation 0
      (Except.error 13 : Except Nat Nat)).2.2.1 13 rfl
  · exact (task_outcome_propagation 5 (Except.ok () : Except Nat Unit)).1
  · exact (task_outcome_propagation 0
      (Except.ok 42 : Except Nat Nat)).2.2.2.2.1

theorem drainChain_id {α : Type} (l : List α) : drainChain l = l := by
  induction l with
  | nil => rfl
  | cons a rest ih => simp [drainChain, ih]

/-- Claim C7: the destructor performs wait, then the stop store, then
the joins, then the drain, in that order; the drain walks the overflow
chain and deallocates every remaining envelope, so the overflow list
ends empty and nothing is leaked. -/
theorem destructor_spec {α : Type} (s : Shutdown α) :
    (destructor s).trace = s.trace ++
      [Phase.waitPhase, Phase.stopPhase, Phase.joinPhase, Phase.drainPhase] ∧
    (destructor s).pool.stopFlag = true ∧
    (destructor s).joinedAll = true ∧
    (destructor s).pool.overflowList = [] ∧
    (destructor s).freed = s.freed ++ s.pool.overflowList ∧
    (destructor s).pool.rings = s.pool.rings := by
  refine ⟨?_, rfl, rfl, rfl, ?_, rfl⟩
  · simp [destructor, dtorWait, dtorStop, dtorJoin, dtorDrain]
  · simp [destructor, dtorWait, dtorStop, dtorJoin, dtorDrain, drainChain_id]

/-- Claim C8: pending_tasks returns overflow_size plus active_tasks
and takes no account of the envelopes sitting in the local rings: the
value is invariant under replacing the rings wholesale. -/
theorem pending_tasks_spec {α : Type} (p : Pool α) (rs : List (Ring α)) :
    pending_tasks p = p.overflowSize + p.activeTasks ∧
    pending_tasks { p with rings := rs } = pending_tasks p := by
  exact ⟨rfl, rfl⟩

/-- Claim C9: the back-off ladder is keyed on the consecutive-miss
count returned by the fetch-and-increment and escalates monotonically:
below 10 misses a cooperative yield, below 20 a ten-microsecond sleep,
below 100 a hundred-microsecond sleep, at 100 or more the sleeping
flag is set, the thread sleeps one millisecond, and the flag is
cleared; the requested delay never decreases as the miss count grows,
and obtaining a task resets the miss counter to zero. -/
theorem backoff_ladder (d d1 d2 : WorkerData) :
    (d.steal_attempts < 10 →
      backoff d = ({ d with steal_attempts := d.steal_attempts + 1 },
        [BackoffEvent.yieldCoop])) ∧
    (10 ≤ d.steal_attempts → d.steal_attempts < 20 →
      backoff d = ({ d with steal_attempts := d.steal_attempts + 1 },
        [BackoffEvent.sleepFor 10])) ∧
    (20 ≤ d.steal_attempts → d.steal_attempts < 100 →
      backoff d = ({ d with steal_attempts := d.steal_attempts + 1 },
        [BackoffEvent.sleepFor 100])) ∧
    (100 ≤ d.steal_attempts →
      backoff d = ({ d with steal_attempts := d.steal_attempts + 1,
                            sleeping := false },
        [BackoffEvent.setSleeping true, BackoffEvent.sleepFor 1000,
         BackoffEvent.setSleeping false]) ∧
      (backoff d).1.sleeping = false) ∧
    (d1.steal_attempts ≤ d2.steal_attempts →
      backoffDelay (backoff d1).2 ≤ backoffDelay (backoff d2).2) ∧
    (onTaskObtained d).steal_attempts = 0 := by
  refine ⟨?_, ?_, ?_, ?_, ?_, rfl⟩
  · intro h
    unfold backoff
    rw [if_pos h]
  · intro h1 h2
    unfold backoff
    rw [if_neg (by omega), if_pos h2]
  · intro h1 h2
    unfold backoff
    rw [if_neg (by omega), if_neg (by omega), if_pos h2]
  · intro h
    unfold backoff
    rw [if_neg (by omega), if_neg (by omega), if_neg (by omega)]
    exact ⟨rfl, rfl⟩
  · intro h
    simp only [backoff]
    split_ifs <;> simp [backoffDelay] <;> omega

/-- Claim C9 witness: the ladder evaluated at one miss count from each
rung and across a rung boundary. -/
theorem backoff_ladder_witness :
    backoff { steal_attempts := 3, sleeping := false }
      = ({ steal_attempts := 4, sleeping := false },
         [BackoffEvent.yieldCoop]) ∧
    backoff { steal_attempts := 15, sleeping := false }
      = ({ steal_attempts := 16, sleeping := false },
         [BackoffEvent.sleepFor 10]) ∧
    backoff { steal_attempts := 50, sleeping := false }
      = ({ steal_attempts := 51, sleeping := false },
         [BackoffEvent.sleepFor 100]) ∧
    backoff { steal_attempts := 200, sleeping := false }
      = ({ steal_attempts := 201, sleeping := false },
         [BackoffEvent.setSleeping true, BackoffEvent.sleepFor 1000,
          BackoffEvent.setSleeping false]) ∧
    backoffDelay (backoff { steal_attempts := 15, sleeping := false }).2
      ≤ backoffDelay (backoff { steal_attempts := 150, sleeping := false }).2 ∧
    (onTaskObtained { steal_attempts := 77, sleeping := false }).steal_attempts
      = 0 := by
  refine ⟨?_, ?_, ?_, ?_, ?_, ?_⟩
  · exact (backoff_ladder { steal_attempts := 3, sleeping := false }
      { steal_attempts := 0, sleeping := false }
      { steal_attempts := 0, sleeping := false }).1 (by decide)
  · exact (backoff_ladder { steal_attempts := 15, sleeping := false }
      { steal_attempts := 0, sleeping := false }
      { steal_attempts := 0, sleeping := false }).2.1 (by decide) (by decide)
  · exact (backoff_ladder { steal_attempts := 50, sleeping := false }
      { steal_attempts := 0, sleeping := false }
      { steal_attempts := 0, sleeping := false }).2.2.1 (by decide) (by decide)
  · exact ((backoff_ladder { steal_attempts := 200, sleeping := false }
      { steal_attempts := 0, sleeping := false }
      { steal_attempts := 0, sleeping := false }).2.2.2.1 (by decide)).1
  · exact (backoff_ladder { steal_attempts := 0, sleeping := false }
      { steal_attempts := 15, sleeping := false }
      { steal_attempts := 150, sleeping := false }).2.2.2.2.1 (by decide)
  · exact (backoff_ladder { steal_attempts := 77, sleeping := false }
      { steal_attempts := 0, sleeping := false }
      { steal_attempts := 0, sleeping := false }).2.2.2.2.2

theorem push_true_iff {α : Type} {k : Nat} (hk : 1 ≤ k) (r : Ring α)
    (item : α) (hw : Ring.WF (2 ^ k) r) :
    (Ring.push (2 ^ k) r item).1 = true ↔
      Ring.count (2 ^ k) r < 2 ^ k - 1 := by
  have hS2 : 2 ≤ 2 ^ k := two_le_two_pow hk
  have hcl : Ring.count (2 ^ k) r < 2 ^ k := dist_lt (by omega)
  constructor
  · intro htrue
    by_contra hge
    have hfull : Ring.count (2 ^ k) r = 2 ^ k - 1 := by omega
    have hf := (push_full_iff hk r hw).mpr hfull
    rw [push_fail _ _ item hf] at htrue
    simp at htrue
  · intro hlt
    have hnf : ¬ ((r.tail + 1) &&& (2 ^ k - 1) = r.head) := by
      intro hfull
      have := (push_full_iff hk r hw).mp hfull
      omega
    exact (push_success hk r item hw hnf).1

theorem runOps_invariant {α : Type} {k : Nat} (hk : 1 ≤ k) :
    ∀ (ops : List (RingOp α)) (r : Ring α), Ring.WF (2 ^ k) r →
      Ring.WF (2 ^ k) (runOps (2 ^ k) ops r).1 ∧
      Ring.count (2 ^ k) (runOps (2 ^ k) ops r).1 +
          (runOps (2 ^ k) ops r).2.2 =
        Ring.count (2 ^ k) r + (runOps (2 ^ k) ops r).2.1 := by
  intro ops
  induction ops with
  | nil =>
    intro r hw
    exact ⟨hw, by simp [runOps]⟩
  | cons op rest ih =>
    intro r hw
    cases op with
    | pushOp a =>
      by_cases hf : (r.tail + 1) &&& (2 ^ k - 1) = r.head
      · have hpf := push_fail (2 ^ k) r a hf
        simp only [runOps, hpf]
        obtain ⟨ihw, ihc⟩ := ih r hw
        exact ⟨ihw, by simpa using ihc⟩
      · obtain ⟨hp1, pw, pc, _, _⟩ := push_success hk r a hw hf
        simp only [runOps, hp1]
        obtain ⟨ihw, ihc⟩ := ih _ pw
        refine ⟨ihw, ?_⟩
        simp only [if_true]
        omega
    | popOp =>
      by_cases he : r.head = r.tail
      · have hpe := pop_empty (2 ^ k) r he
        simp only [runOps, hpe, if_pos he]
        obtain ⟨ihw, ihc⟩ := ih r hw
        exact ⟨ihw, ihc⟩
      · obtain ⟨_, pw, pc, _, _⟩ := pop_nonempty hk r hw he
        simp only [runOps, if_neg he]
        obtain ⟨ihw, ihc⟩ := ih _ pw
        have hc0 : Ring.count (2 ^ k) r ≠ 0 := by
          intro h0
          exact he ((dist_zero_iff hw.1 hw.2.1).mp h0)
        exact ⟨ihw, by omega⟩
    | stealOp =>
      by_cases he : r.head = r.tail
      · have hpe := pop_empty (2 ^ k) r he
        simp only [runOps, steal_eq_pop, hpe, if_pos he]
        obtain ⟨ihw, ihc⟩ := ih r hw
        exact ⟨ihw, ihc⟩
      · obtain ⟨_, pw, pc, _, _⟩ := pop_nonempty hk r hw he
        simp only [runOps, steal_eq_pop, if_neg he]
        obtain ⟨ihw, ihc⟩ := ih _ pw
        have hc0 : Ring.count (2 ^ k) r ≠ 0 := by
          intro h0
          exact he ((dist_zero_iff hw.1 hw.2.1).mp h0)
        exact ⟨ihw, by omega⟩

theorem pushAll_success {α : Type} {k : Nat} (hk : 1 ≤ k) :
    ∀ (l : List α) (r : Ring α), Ring.WF (2 ^ k) r →
      Ring.count (2 ^ k) r + l.length ≤ 2 ^ k - 1 →
      ∃ r', pushAll (2 ^ k) l r = some r' ∧ Ring.WF (2 ^ k) r' ∧
        Ring.count (2 ^ k) r' = Ring.count (2 ^ k) r + l.length := by
  intro l
  induction l with
  | nil =>
    intro r hw hle
    exact ⟨r, rfl, hw, by simp⟩
  | cons a rest ih =>
    intro r hw hle
    simp only [List.length_cons] at hle
    have hlt : Ring.count (2 ^ k) r < 2 ^ k - 1 := by omega
    have hnf : ¬ ((r.tail + 1) &&& (2 ^ k - 1) = r.head) := by
      intro hfull
      have := (push_full_iff hk r hw).mp hfull
      omega
    obtain ⟨hp1, pw, pc, _, _⟩ := push_success hk r a hw hnf
    obtain ⟨r', hr', rw', rc'⟩ := ih (Ring.push (2 ^ k) r a).2 pw (by omega)
    refine ⟨r', ?_, rw', by simp only [List.length_cons]; omega⟩
    simp only [pushAll, hp1, if_true]
    exact hr'

/-- Claim C10: a ring instantiated with a power-of-two size parameter
(4096 = 2 to the 12 for each worker's local queue) holds at most
Size - 1 envelopes: from the default-constructed ring, any Size - 1
consecutive pushes all succeed and the next push is rejected leaving
the ring unchanged; a push succeeds exactly when the occupancy is
below Size - 1; and along every sequence of push, pop, and steal
operations from empty, the occupancy equals successful pushes minus
nonempty pops/steals and stays at most Size - 1. -/
theorem ring_capacity {α : Type} {k : Nat} (hk : 1 ≤ k) :
    (∀ l : List α, l.length = 2 ^ k - 1 → ∀ x : α,
      ∃ r', pushAll (2 ^ k) l (emptyRing α (2 ^ k)) = some r' ∧
        Ring.push (2 ^ k) r' x = (false, r')) ∧
    (∀ (r : Ring α) (item : α), Ring.WF (2 ^ k) r →
      ((Ring.push (2 ^ k) r item).1 = true ↔
        Ring.count (2 ^ k) r < 2 ^ k - 1)) ∧
    (∀ ops : List (RingOp α),
      Ring.count (2 ^ k) (runOps (2 ^ k) ops (emptyRing α (2 ^ k))).1
          ≤ 2 ^ k - 1 ∧
      Ring.count (2 ^ k) (runOps (2 ^ k) ops (emptyRing α (2 ^ k))).1 +
          (runOps (2 ^ k) ops (emptyRing α (2 ^ k))).2.2 =
        (runOps (2 ^ k) ops (emptyRing α (2 ^ k))).2.1) := by
  have hS2 : 2 ≤ 2 ^ k := two_le_two_pow hk
  have hS : 0 < 2 ^ k := by omega
  have hwE : Ring.WF (2 ^ k) (emptyRing α (2 ^ k)) := emptyRing_wf hS
  have hcE : Ring.count (2 ^ k) (emptyRing α (2 ^ k)) = 0 :=
    emptyRing_count hS
  refine ⟨?_, fun r item hw => push_true_iff hk r item hw, ?_⟩
  · intro l hlen x
    obtain ⟨r', hr', rw', rc'⟩ :=
      pushAll_success hk l (emptyRing α (2 ^ k)) hwE (by omega)
    refine ⟨r', hr', ?_⟩
    have hfull : Ring.count (2 ^ k) r' = 2 ^ k - 1 := by omega
    exact push_fail _ _ x ((push_full_iff hk r' rw').mpr hfull)
  · intro ops
    obtain ⟨iw, ic⟩ := runOps_invariant hk ops (emptyRing α (2 ^ k)) hwE
    have hlt : Ring.count (2 ^ k) (runOps (2 ^ k) ops (emptyRing α (2 ^ k))).1
        < 2 ^ k := dist_lt hS
    exact ⟨by omega, by omega⟩

/-- Claim C10 witness: on the four-slot ring, three consecutive pushes
succeed and the fourth is rejected; a push into the empty ring
succeeds since the occupancy is below three. -/
theorem ring_capacity_witness :
    (∃ r', pushAll (2 ^ 2) [1, 2, 3] (emptyRing Nat (2 ^ 2)) = some r' ∧
      Ring.push (2 ^ 2) r' 4 = (false, r')) ∧
    ((Ring.push (2 ^ 2) (emptyRing Nat (2 ^ 2)) 1).1 = true ↔
      Ring.count (2 ^ 2) (emptyRing Nat (2 ^ 2)) < 2 ^ 2 - 1) :=
  ⟨(ring_capacity (α := Nat) (by decide)).1 [1, 2, 3] (by decide) 4,
   (ring_capacity (α := Nat) (by decide)).2.1 (emptyRing Nat (2 ^ 2)) 1
     (by decide)⟩

end Threadpool
